import Mathlib

/-!
Verification development for the container-tree core of the miracle-wm
tiling window manager (`tiling_window_tree.cpp`, `leaf_container.cpp`,
`container.cpp`).

The C++ tree of `Container` objects is embedded as a rose tree `Ctr`.
A node in the tree is addressed by its path from the root (the list of
child indices); parent pointers of the C++ code become `List.dropLast`
on paths.  All machine integers are modelled as `Int` (the C++ code uses
`int` throughout the geometry types); the one place where the C++ code
mixes `int` with `size_t` (the minimum-size validation in
`handle_resize`) is modelled with the exact unsigned conversion the C++
usual arithmetic conversions perform.
-/

namespace Miracle

/-- Rectangle with integer coordinates, mirroring `mir::geometry::Rectangle`
(`top_left.x`, `top_left.y`, `size.width`, `size.height`, all `int`). -/
structure Rect where
  x : Int
  y : Int
  w : Int
  h : Int
  deriving DecidableEq, Repr

/-- Layout scheme of a lane, mirroring `enum class LayoutScheme`. -/
inductive LayoutScheme where
  | horizontal
  | vertical
  | tabbing
  | stacking
  deriving DecidableEq, Repr

/-- Direction of a user request, mirroring `enum class Direction`. -/
inductive Dir where
  | up
  | left
  | down
  | right
  deriving DecidableEq, Repr

/-- A container tree node: `LeafContainer` (one window slot) or
`ParentContainer` (a lane with a layout scheme and an ordered child list).
Every container carries its committed logical area. -/
inductive Ctr where
  | leaf : Rect → Ctr
  | lane : LayoutScheme → Rect → List Ctr → Ctr

/-- The logical area of a container (`get_logical_area`). -/
def Ctr.area : Ctr → Rect
  | .leaf r => r
  | .lane _ r _ => r

/-- Replace a container's own logical area (`set_logical_area` followed by
`commit_changes`; the two-phase staging of the C++ code is collapsed because
every staged write in the algorithms under study is committed in the same
operation).  Child redistribution performed by the missing
`ParentContainer::set_logical_area` is not modelled; no claim depends on
grandchild geometry. -/
def Ctr.withArea (r : Rect) : Ctr → Ctr
  | .leaf _ => .leaf r
  | .lane s _ cs => .lane s r cs

/-- The ordered child list of a container (`get_sub_nodes`; a leaf has none). -/
def Ctr.children : Ctr → List Ctr
  | .leaf _ => []
  | .lane _ _ cs => cs

/-- Whether the container is a leaf (`is_leaf`). -/
def Ctr.isLeaf : Ctr → Bool
  | .leaf _ => true
  | .lane _ _ _ => false

/-- Minimum width of a container.  `LeafContainer::get_min_width` returns 50.
Modelled from the spec: `parent_container.cpp` is not in the sources; the
spec names no separate minimum for lanes, so lanes carry the same 50 px
floor as leaves. -/
def Ctr.minW : Ctr → Nat
  | _ => 50

/-- Minimum height of a container (`LeafContainer::get_min_height` returns 50;
lanes modelled as for `Ctr.minW`). -/
def Ctr.minH : Ctr → Nat
  | _ => 50

/-- Node lookup by path: `getAt t p` is the container reached from `t` by
taking child `i` at each `i ∈ p`.  Paths replace the C++ shared pointers. -/
def getAt : Ctr → List Nat → Option Ctr
  | c, [] => some c
  | .leaf _, _ :: _ => none
  | .lane _ _ cs, i :: rest =>
    match cs[i]? with
    | some c => getAt c rest
    | none => none

/-- Apply `f` to the `i`-th entry of a child list, leaving other entries
and out-of-range indices unchanged. -/
def modifyChild : List Ctr → Nat → (Ctr → Ctr) → List Ctr
  | [], _, _ => []
  | c :: cs, 0, f => f c :: cs
  | c :: cs, n + 1, f => c :: modifyChild cs n f

/-- Apply `f` to the node at path `p` (identity when the path is invalid). -/
def modifyAt : Ctr → List Nat → (Ctr → Ctr) → Ctr
  | c, [], f => f c
  | .leaf r, _ :: _, _ => .leaf r
  | .lane s r cs, i :: rest, f => .lane s r (modifyChild cs i fun c => modifyAt c rest f)

/-- True if `d` is `up` or `down` (`is_vertical_direction`). -/
def isVerticalDir : Dir → Bool
  | .up => true
  | .down => true
  | _ => false

/-- True if `d` is `left` or `up` (`is_negative_direction`). -/
def isNegativeDir : Dir → Bool
  | .left => true
  | .up => true
  | _ => false

/-- The layout axis of a direction (`from_direction`): vertical for up/down,
horizontal otherwise. -/
def fromDirection (d : Dir) : LayoutScheme :=
  if isVerticalDir d then .vertical else .horizontal

/-- Opposite direction, used to state the select round-trip property. -/
def oppositeDir : Dir → Dir
  | .up => .down
  | .down => .up
  | .left => .right
  | .right => .left

/-!
Resize (`TilingWindowTree::handle_resize`)

The staging loop builds one candidate rectangle per sibling; a sibling's
extent along the resize axis gets `resize_amount` added when it is the
resized node and `floor(-resize_amount / (n-1))` otherwise, and every
rectangle after the first is re-anchored after its predecessor.  The C++
validation `other_rect.size.width.as_int() <= other_node->get_min_width()`
compares an `int` with a `size_t`: the usual arithmetic conversions turn the
signed dimension into an unsigned 64-bit value first, which `uLe` models
exactly (a negative dimension wraps to a huge value and the check passes).
-/

/-- The C++ comparison `(int)dim <= (size_t)m` after the usual arithmetic
conversions on an LP64 platform: the signed value is reduced mod 2^64. -/
def uLe (dim : Int) (m : Nat) : Bool :=
  (dim % (2 : Int) ^ 64).toNat ≤ m

/-- One staged rectangle per sibling for a vertical resize, aborting
(`none`) as soon as a converted dimension passes the minimum check, exactly
as the loop in `handle_resize` does.  `i` is the running index, `target` the
index of the resized node, `prev` the previously staged rectangle. -/
def stageV : List Ctr → Nat → Nat → Int → Int → Option Rect → Option (List Rect)
  | [], _, _, _, _, _ => some []
  | c :: rest, i, target, amt, forOthers, prev =>
    let r0 := c.area
    let r1 : Rect :=
      if i = target then { r0 with h := r0.h + amt } else { r0 with h := r0.h + forOthers }
    let r2 : Rect :=
      match prev with
      | some pr => if i ≠ 0 then { r1 with y := pr.y + pr.h } else r1
      | none => r1
    if uLe r2.h c.minH then none
    else (stageV rest (i + 1) target amt forOthers (some r2)).map (r2 :: ·)

/-- One staged rectangle per sibling for a horizontal resize; mirror image
of `stageV` on widths and x anchors. -/
def stageH : List Ctr → Nat → Nat → Int → Int → Option Rect → Option (List Rect)
  | [], _, _, _, _, _ => some []
  | c :: rest, i, target, amt, forOthers, prev =>
    let r0 := c.area
    let r1 : Rect :=
      if i = target then { r0 with w := r0.w + amt } else { r0 with w := r0.w + forOthers }
    let r2 : Rect :=
      match prev with
      | some pr => if i ≠ 0 then { r1 with x := pr.x + pr.w } else r1
      | none => r1
    if uLe r2.w c.minW then none
    else (stageH rest (i + 1) target amt forOthers (some r2)).map (r2 :: ·)

/-- Add `extra` to the height of the last staged rectangle (the
`pending_node_resizes.back()` leftover absorption). -/
def absorbV (extra : Int) : List Rect → List Rect
  | [] => []
  | [r] => [{ r with h := r.h + extra }]
  | r :: rest => r :: absorbV extra rest

/-- Add `extra` to the width of the last staged rectangle. -/
def absorbH (extra : Int) : List Rect → List Rect
  | [] => []
  | [r] => [{ r with w := r.w + extra }]
  | r :: rest => r :: absorbH extra rest

/-- Overwrite each child's logical area with its staged rectangle
(the `set_logical_area` + `commit_changes` loop at the end of
`handle_resize`). -/
def applyRects : List Ctr → List Rect → List Ctr
  | cs, [] => cs
  | [], _ => []
  | c :: cs, r :: rs => c.withArea r :: applyRects cs rs

/-- The body of `handle_resize` once the matching-axis parent lane has been
reached: stage every sibling's rectangle, abort on a failed minimum check,
otherwise fold the rounding leftover into the last rectangle.  Returns the
final rectangles (`none` = aborted). -/
def resizeLane (cs : List Ctr) (target : Nat) (amt : Int) (vertical : Bool)
    (parentRect : Rect) : Option (List Rect) :=
  if vertical then
    let forOthers : Int := (-amt).fdiv ((cs.length : Int) - 1)
    match stageV cs 0 target amt forOthers none with
    | none => none
    | some rects =>
      let total := (rects.map Rect.h).sum
      some (absorbV (parentRect.h - total) rects)
  else
    let forOthers : Int := (-amt).fdiv ((cs.length : Int) - 1)
    match stageH cs 0 target amt forOthers none with
    | none => none
    | some rects =>
      let total := (rects.map Rect.w).sum
      some (absorbH (parentRect.w - total) rects)

/-- Embeds `TilingWindowTree::handle_resize`, with the node given by its path in
reverse (`revp = p.reverse`, so the head is the node's index in its parent
and the tail is the reversed parent path).  Returns the new tree and the
paths of the containers on which `commit_changes` was invoked.  An empty
commit list means the operation returned without touching any container. -/
def handleResizeRev (t : Ctr) : List Nat → Dir → Int → Ctr × List (List Nat)
  | [], _, _ => (t, [])
  | i :: qrev, d, amount =>
    let q := qrev.reverse
    match getAt t q with
    | some (.lane s pr cs) =>
      let vert := isVerticalDir d
      let mainAxis := (vert && s = .vertical) || (!vert && s = .horizontal)
      if mainAxis && cs.length = 1 then (t, [])
      else if !mainAxis then handleResizeRev t qrev d amount
      else
        let amt := if isNegativeDir d then -amount else amount
        match resizeLane cs i amt vert pr with
        | none => (t, [])
        | some rects =>
          (modifyAt t q fun c =>
            match c with
            | .lane s2 r2 cs2 => .lane s2 r2 (applyRects cs2 rects)
            | c => c,
           (List.range cs.length).map fun j => q ++ [j])
    | _ => (t, [])

/-- Embeds `TilingWindowTree::handle_resize` on a path from the root. -/
def handleResize (t : Ctr) (p : List Nat) (d : Dir) (amount : Int) :
    Ctr × List (List Nat) :=
  handleResizeRev t p.reverse d amount

/-- A horizontal root lane holding two 100 px-wide leaves; the failing input
for the minimum-size validation of `handle_resize`. -/
def resizeBugTree : Ctr :=
  .lane .horizontal ⟨0, 0, 200, 200⟩ [.leaf ⟨0, 0, 100, 200⟩, .leaf ⟨100, 0, 100, 200⟩]

/-!
Directional navigation

`get_closest_window_to_select_from_node` scans a lane's children for the
first one whose recursive descent yields a leaf.  The C++ loops have no side
effects, so the embedding first computes every child's recursive result
(`closestResults`) and then replays the two loops as index scans over that
list: the reverse loop runs over indices `n-1 … 1` (the C++
`for (i = size-1; i != 0; i--)` never reaches index 0), the forward loop
over `0 … n-1`.
-/

/-- Scan the child results at the given indices, returning `idx :: subpath`
for the first index whose descent yielded a path. -/
def pickIdx (subs : List (Option (List Nat))) (idxs : List Nat) : Option (List Nat) :=
  idxs.findSome? fun i => (subs.getD i none).map (i :: ·)

/-- Indices `n-1, …, 1` of the reverse scan loop. -/
def revIdxs (n : Nat) : List Nat :=
  (List.range n).reverse.dropLast

mutual

/-- Embeds `get_closest_window_to_select_from_node`, returning the path of the
chosen leaf relative to `c` (`some []` means `c` itself).  A lane whose
scheme equals the direction's axis (tabbing and stacking never match here)
is scanned in reverse first when the direction is negative, then forward. -/
def getClosestPath : Ctr → Dir → Option (List Nat)
  | .leaf _, _ => some []
  | .lane s _ cs, d =>
    let subs := closestResults cs d
    if (isVerticalDir d && s = .vertical) || (!isVerticalDir d && s = .horizontal) then
      if isNegativeDir d then
        match pickIdx subs (revIdxs cs.length) with
        | some r => some r
        | none => pickIdx subs (List.range cs.length)
      else pickIdx subs (List.range cs.length)
    else pickIdx subs (List.range cs.length)

/-- The recursive descent result of every child, in child order. -/
def closestResults : List Ctr → Dir → List (Option (List Nat))
  | [], _ => []
  | c :: rest, d => getClosestPath c d :: closestResults rest d

end

/-- The axis test of `handle_select`: a vertical direction matches a
vertical lane, a horizontal direction matches a horizontal or tabbing lane. -/
def axisMatchSel (vert : Bool) (s : LayoutScheme) : Bool :=
  (vert && s = .vertical) || (!vert && (s = .horizontal || s = .tabbing))

/-- One iteration of the `handle_select` climb at ancestor `q` whose child
index on the way down is `i`: the path of the adjacent sibling to descend
into, or `none` when the ancestor's axis does not match or the node sits at
the extremity implied by the direction's sign. -/
def stepTarget (t : Ctr) (q : List Nat) (i : Nat) (d : Dir) : Option (List Nat) :=
  match getAt t q with
  | some (.lane s _ cs) =>
    if axisMatchSel (isVerticalDir d) s then
      if isNegativeDir d then
        if 0 < i then some (q ++ [i - 1]) else none
      else
        if (i : Int) < (cs.length : Int) - 1 then some (q ++ [i + 1]) else none
    else none
  | _ => none

/-- Descend from a step target via `get_closest_window_to_select_from_node`,
making the returned path absolute. -/
def descend (t : Ctr) (d : Dir) (step : List Nat) : Option (List Nat) :=
  match getAt t step with
  | some c => (getClosestPath c d).map fun r => step ++ r
  | none => none

/-- The `handle_select` climb on the reversed path of the starting node:
the head is the node's index in its parent, the tail the reversed parent
path.  The first ancestor that yields a step target ends the climb (its
descent result is returned even when empty); when the root is passed the
result is `none`. -/
def climbRev (t : Ctr) (d : Dir) : List Nat → Option (List Nat)
  | [] => none
  | i :: qrev =>
    match stepTarget t qrev.reverse i d with
    | some step => descend t d step
    | none => climbRev t d qrev

/-- Embeds `TilingWindowTree::handle_select` from the node at path `p` (select on
the root returns `none` because the root has no parent). -/
def handleSelect (t : Ctr) (p : List Nat) (d : Dir) : Option (List Nat) :=
  climbRev t d p.reverse

/-- The step targets of every ancestor visited by the `handle_select` climb,
innermost parent first, computed from the reversed starting path. -/
def ancSteps (t : Ctr) (d : Dir) : List Nat → List (Option (List Nat))
  | [] => []
  | i :: qrev => stepTarget t qrev.reverse i d :: ancSteps t d qrev

/-!
Removal (`TilingWindowTree::handle_remove`)
-/

/-- A lane with no children.  `ParentContainer::remove` is not in the
sources; per spec section 4.2 it detaches the child and cascades: the lane
removes itself from its own parent when it becomes empty and is not the
tree root. -/
def Ctr.isEmptyLane : Ctr → Bool
  | .lane _ _ [] => true
  | _ => false

/-- Modelled from the spec: `ParentContainer::remove` (file
`parent_container.cpp` is not in the sources).  Removes the node at path
`p`, cascading per spec section 4.2: a lane that becomes empty and is not
the tree root is removed from its own parent in turn.  The cascade is
rendered top-down: after the recursive removal inside child `i`, a child
that has become an empty lane is erased from this lane's list. -/
def removeNodeAt : Ctr → List Nat → Ctr
  | t, [] => t
  | .leaf r, _ :: _ => .leaf r
  | .lane s r cs, [i] => .lane s r (cs.eraseIdx i)
  | .lane s r cs, i :: j :: rest =>
    match cs[i]? with
    | none => .lane s r cs
    | some c =>
      let c2 := removeNodeAt c (j :: rest)
      if c2.isEmptyLane then .lane s r (cs.eraseIdx i)
      else .lane s r (cs.set i c2)

/-- Embeds `TilingWindowTree::handle_remove`: when the node's parent holds only
this node and is not the root, the whole (about-to-be-empty) lane is
removed from the grandparent, which becomes the parent-to-commit; otherwise
the node is removed from its parent.  Returns the new tree and the path of
the parent-to-commit (`none` when the node has no parent). -/
def handleRemove (t : Ctr) (p : List Nat) : Ctr × Option (List Nat) :=
  if p = [] then (t, none)
  else
    match getAt t p.dropLast with
    | some (.lane _ _ cs) =>
      if cs.length = 1 ∧ p.dropLast ≠ [] then
        (removeNodeAt t p.dropLast, some p.dropLast.dropLast)
      else (removeNodeAt t p, some p.dropLast)
    | _ => (t, none)

mutual

/-- Every lane in the subtree, including the node itself, has at least one
child. -/
def noEmptyLanes : Ctr → Bool
  | .leaf _ => true
  | .lane _ _ cs => !cs.isEmpty && noEmptyLanesAll cs

/-- Embeds `noEmptyLanes` for every tree in the list. -/
def noEmptyLanesAll : List Ctr → Bool
  | [] => true
  | c :: rest => noEmptyLanes c && noEmptyLanesAll rest

end

/-- The tree-level invariant of spec section 3: every internal lane except
possibly the root has at least one child. -/
def rootWF : Ctr → Bool
  | .leaf _ => true
  | .lane _ _ cs => noEmptyLanesAll cs

/-- A horizontal root lane with two side-by-side leaves, used as the
concrete input of several witnesses. -/
def twoLeafTree : Ctr :=
  .lane .horizontal ⟨0, 0, 200, 100⟩ [.leaf ⟨0, 0, 100, 100⟩, .leaf ⟨100, 0, 100, 100⟩]

/-!
Neighbor detection and visible area
(`Container::get_neighbors`, `LeafContainer::get_visible_area`)
-/

/-- Embeds `has_neighbor(container, direction, cannot_be_index)`: climbs past
lanes whose scheme differs from `ds`; at a matching lane the container (or
the ancestor reached so far) has a neighbor when the lane has more than one
child and the index is not `cannot_be_index`, otherwise the climb goes on.
Note that `cannot_be_index` is fixed once by the caller from the immediate
parent and is reused unchanged at every ancestor level.  The reversed path
of the node is passed (head = index in parent, tail = reversed parent
path). -/
def hasNeighborRev (t : Ctr) : List Nat → LayoutScheme → Nat → Bool
  | [], _, _ => false
  | i :: qrev, ds, cannot =>
    match getAt t qrev.reverse with
    | some (.lane s _ cs) =>
      if s ≠ ds then hasNeighborRev t qrev ds cannot
      else (decide (cs.length > 1) && decide (i ≠ cannot))
        || hasNeighborRev t qrev ds cannot
    | _ => false

/-- Embeds `has_top_neighbor`: `cannot_be_index = 0` on the vertical axis. -/
def hasTopNeighbor (t : Ctr) (p : List Nat) : Bool :=
  if p = [] then false else hasNeighborRev t p.reverse .vertical 0

/-- Embeds `has_left_neighbor`: `cannot_be_index = 0` on the horizontal axis. -/
def hasLeftNeighbor (t : Ctr) (p : List Nat) : Bool :=
  if p = [] then false else hasNeighborRev t p.reverse .horizontal 0

/-- Embeds `has_bottom_neighbor`: `cannot_be_index` is the immediate parent's
`num_nodes() - 1`, on the vertical axis. -/
def hasBottomNeighbor (t : Ctr) (p : List Nat) : Bool :=
  if p = [] then false
  else
    match getAt t p.dropLast with
    | some (.lane _ _ cs) => hasNeighborRev t p.reverse .vertical (cs.length - 1)
    | _ => false

/-- Embeds `has_right_neighbor`: `cannot_be_index` is the immediate parent's
`num_nodes() - 1`, on the horizontal axis. -/
def hasRightNeighbor (t : Ctr) (p : List Nat) : Bool :=
  if p = [] then false
  else
    match getAt t p.dropLast with
    | some (.lane _ _ cs) => hasNeighborRev t p.reverse .horizontal (cs.length - 1)
    | _ => false

/-- Embeds `(int)ceil(g / 2.0)` on an integer gap `g`. -/
def ceilHalf (g : Int) : Int := (g + 1).fdiv 2

/-- Embeds `LeafContainer::get_visible_area`: the logical area loses half the
inner gap on each edge whose neighbor flag is set and the border thickness
on all four edges. -/
def getVisibleArea (t : Ctr) (p : List Nat) (gapX gapY border : Int) : Rect :=
  match getAt t p with
  | none => ⟨0, 0, 0, 0⟩
  | some c =>
    let hx := ceilHalf gapX
    let hy := ceilHalf gapY
    let r := c.area
    let x1 := if hasLeftNeighbor t p then r.x + hx else r.x
    let w1 := if hasLeftNeighbor t p then r.w - hx else r.w
    let w2 := if hasRightNeighbor t p then w1 - hx else w1
    let y1 := if hasTopNeighbor t p then r.y + hy else r.y
    let h1 := if hasTopNeighbor t p then r.h - hy else r.h
    let h2 := if hasBottomNeighbor t p then h1 - hy else h1
    ⟨x1 + border, y1 + border, w2 - 2 * border, h2 - 2 * border⟩

/-- Modelled from the spec (section 4.1, neighbor detection): walks the
ancestor chain, climbing past lanes whose axis does not match, and stops at
the first matching-axis ancestor with more than one child whose node is not
at the relevant extremity — the extremity index being computed from that
ancestor's own child count (`len - 1` on the positive side, `0` on the
negative side), unlike the code's fixed `cannot_be_index`. -/
def neighborOnSideSpecRev (t : Ctr) : List Nat → LayoutScheme → Bool → Bool
  | [], _, _ => false
  | i :: qrev, ds, positiveSide =>
    match getAt t qrev.reverse with
    | some (.lane s _ cs) =>
      if s ≠ ds then neighborOnSideSpecRev t qrev ds positiveSide
      else (decide (cs.length > 1)
          && decide (i ≠ (if positiveSide then cs.length - 1 else 0)))
        || neighborOnSideSpecRev t qrev ds positiveSide
    | _ => false

/-- Modelled from the spec: the right-edge same-axis-neighbor relation the
spec attributes to `get_neighbors`. -/
def hasRightNeighborSpec (t : Ctr) (p : List Nat) : Bool :=
  if p = [] then false else neighborOnSideSpecRev t p.reverse .horizontal true

/-- The failing input for C9: the third root child is a vertical lane whose
leaves touch the right screen edge, while the immediate parent of those
leaves has a different child count (2) than the root (3). -/
def gapBugTree : Ctr :=
  .lane .horizontal ⟨0, 0, 300, 100⟩
    [.leaf ⟨0, 0, 100, 100⟩, .leaf ⟨100, 0, 100, 100⟩,
     .lane .vertical ⟨200, 0, 100, 100⟩
       [.leaf ⟨200, 0, 100, 50⟩, .leaf ⟨200, 50, 100, 50⟩]]

/-!
Tree-level state and operations (`TilingWindowTree`)
-/

/-- The state of one `TilingWindowTree` together with the collaborator data
the embedded operations read: the root lane, the tree-wide
`is_active_window_fullscreen` flag, the `CompositorState::active` container
(as a path), the work-area zones of the tree interface, and the
configuration values used by the operations. -/
structure TreeState where
  root : Ctr
  fullscreen : Bool
  active : Option (List Nat)
  zones : List Rect
  resizeJump : Int

/-- Embeds `TilingWindowTree::active_container`: `Container::as_leaf(state.active)`,
i.e. the active container when it is a leaf of this tree. -/
def activeContainer (st : TreeState) : Option (List Nat) :=
  match st.active with
  | some ap =>
    match getAt st.root ap with
    | some (.leaf _) => some ap
    | _ => none
  | none => none

/-- Embeds `mir::geometry::Rectangle::contains(Point)` (external library),
modelled as the half-open box test. -/
def Rect.containsPt (r : Rect) (x y : Int) : Bool :=
  r.x ≤ x && x < r.x + r.w && r.y ≤ y && y < r.y + r.h

mutual

/-- Modelled from the spec: `ParentContainer::find_where` is not in the
sources; modelled as the same depth-first pre-order search the repo's own
`foreach_node_internal` uses — test the node itself, then the children in
order.  Returns the path of the first node satisfying the test. -/
def findWhere : Ctr → (Ctr → Bool) → Option (List Nat)
  | c, pred =>
    if pred c then some []
    else
      match c with
      | .leaf _ => none
      | .lane _ _ cs => findWhereList cs pred

/-- Depth-first search of a child list, returning the index-scoped path of
the first hit. -/
def findWhereList : List Ctr → (Ctr → Bool) → Option (List Nat)
  | [], _ => none
  | c :: rest, pred =>
    match findWhere c pred with
    | some rp => some (0 :: rp)
    | none =>
      match findWhereList rest pred with
      | some (i :: rp) => some ((i + 1) :: rp)
      | _ => none

end

/-- Embeds `TilingWindowTree::select_window_from_point`: while fullscreen, the
active container is returned no matter the coordinates; otherwise the tree
is searched for a leaf whose logical area contains the point. -/
def selectWindowFromPoint (st : TreeState) (x y : Int) : Option (List Nat) :=
  if st.fullscreen then activeContainer st
  else findWhere st.root fun c => c.isLeaf && c.area.containsPt x y

/-- Embeds `TilingWindowTree::resize_container`: refused while fullscreen, else
delegates to `handle_resize` with the configured resize jump.  The `Bool`
result, the new state and the emitted warning log lines are returned. -/
def resizeContainer (st : TreeState) (d : Dir) (p : List Nat) :
    Bool × TreeState × List String :=
  if st.fullscreen then
    (false, st, ["Unable to resize the next window: fullscreened"])
  else
    (true, { st with root := (handleResize st.root p d st.resizeJump).1 }, [])

/-- Embeds `TilingWindowTree::select_next`: refused while fullscreen; otherwise a
failure of `handle_select` is reported and a success hands the window to
the window controller (outside the tree, whose state is unchanged). -/
def selectNext (st : TreeState) (d : Dir) (p : List Nat) :
    Bool × TreeState × List String :=
  if st.fullscreen then
    (false, st, ["Unable to select the next window: fullscreened"])
  else
    match handleSelect st.root p d with
    | none => (false, st, ["Unable to select the next window: handle_select failed"])
    | some _ => (true, st, [])

/-- Embeds `set_direction` on a lane (leaves unchanged). -/
def Ctr.withScheme (s2 : LayoutScheme) : Ctr → Ctr
  | .leaf r => .leaf r
  | .lane _ r cs => .lane s2 r cs

/-- Embeds `TilingWindowTree::handle_layout_scheme`: refused during fullscreen and
for the parentless root; when the parent holds other children and is not
tabbing, the single container is first wrapped in a brand-new lane
(`convert_to_parent`, modelled from spec section 4.2 since
`parent_container.cpp` is not in the sources) and the requested scheme is
set on the resulting lane. -/
def handleLayoutScheme (st : TreeState) (scheme : LayoutScheme) (p : List Nat) :
    TreeState × List String :=
  if st.fullscreen then
    (st, ["Unable to handle direction request: fullscreen"])
  else if p = [] then
    (st, ["handle_layout_scheme: parent is not set"])
  else
    match getAt st.root p.dropLast with
    | some (.lane s _ cs) =>
      if 1 < cs.length ∧ s ≠ .tabbing then
        ({ st with root := modifyAt st.root p fun c => .lane scheme c.area [c] }, [])
      else
        ({ st with root := modifyAt st.root p.dropLast fun c => c.withScheme scheme }, [])
    | _ => (st, [])

/-- Result of `handle_move`: the `MoveResult::traversal_type` values. -/
inductive MoveRes where
  | invalid
  | insert (target : List Nat)
  | toAppend
  | toPrepend
  deriving DecidableEq, Repr

/-- The scheme of a lane; a leaf answers `horizontal` (never reached: the
root, the only container this is asked of, is always a lane). -/
def Ctr.laneScheme : Ctr → LayoutScheme
  | .leaf _ => .horizontal
  | .lane s _ _ => s

/-- Embeds `TilingWindowTree::recalculate_root_node_area`: the root takes the
extents of the first zone, if any (`set_logical_area` + `commit_changes`;
child redistribution lives in the missing `parent_container.cpp` and is
not modelled — the claims only exercise the case where the zone equals the
current root area). -/
def recalcRoot (st : TreeState) : TreeState :=
  match st.zones with
  | [] => st
  | z :: _ => { st with root := st.root.withArea z }

/-- Embeds `TilingWindowTree::handle_move`: a successful `handle_select` yields an
insert at the found node; otherwise, when the node's parent is the root and
the direction's axis differs from the root's, the whole root is wrapped as
the sole child of a brand-new root lane on the new axis and the root area
is recomputed; the result is then a prepend (negative direction) or append
(positive) on the possibly-new root.  Returns the new state, the traversal
result and the moving node's path (re-rooted under the wrap, mirroring the
pointer stability of the C++ node). -/
def handleMove (st : TreeState) (p : List Nat) (d : Dir) :
    TreeState × MoveRes × List Nat :=
  match handleSelect st.root p d with
  | some m => (st, .insert m, p)
  | none =>
    if p.dropLast = [] ∧ p ≠ [] then
      if fromDirection d = st.root.laneScheme then (st, .invalid, p)
      else
        let newRoot : Ctr := .lane (fromDirection d) st.root.area [st.root]
        (recalcRoot { st with root := newRoot },
         if isNegativeDir d then .toPrepend else .toAppend, 0 :: p)
    else
      (st, if isNegativeDir d then .toPrepend else .toAppend, p)

/-- Embeds `ParentContainer::swap_nodes` (modelled from spec section 4.2):
exchange the children at indices `i` and `j` of the lane at `q`. -/
def swapChildren (t : Ctr) (q : List Nat) (i j : Nat) : Ctr :=
  modifyAt t q fun c =>
    match c with
    | .lane s r cs =>
      match cs[i]?, cs[j]? with
      | some a, some b => .lane s r ((cs.set i b).set j a)
      | _, _ => .lane s r cs
    | c => c

/-- The path of the node that `handle_remove` actually erases: climbing
from the node while the parent lane holds exactly one child and is not the
root (the cascade of the modelled `ParentContainer::remove`).  Takes and
returns reversed paths. -/
def eraseTargetRev (t : Ctr) : List Nat → List Nat
  | [] => []
  | [i] => [i]
  | i :: j :: qrev =>
    match getAt t (j :: qrev).reverse with
    | some (.lane _ _ cs) =>
      if cs.length = 1 then eraseTargetRev t (j :: qrev) else i :: j :: qrev
    | _ => i :: j :: qrev

/-- How an existing path shifts when the subtree at `e` is erased: a later
sibling index on the divergence level moves down by one. -/
def shiftAfterErase : List Nat → List Nat → List Nat
  | [k], j :: rest => if k < j then (j - 1) :: rest else j :: rest
  | k :: e, j :: rest => if k = j then j :: shiftAfterErase e rest else j :: rest
  | _, m => m

/-- Embeds `graft_existing(node, index)` on the root lane. -/
def graftRoot (t : Ctr) (i : Nat) (v : Ctr) : Ctr :=
  match t with
  | .leaf r => .leaf r
  | .lane s r cs => .lane s r (cs.insertIdx i v)

/-- Embeds `TilingWindowTree::transfer_node`: detach the node via `handle_remove`,
then graft it into the target's parent right after the target.  The C++
code re-reads the target's parent through pointers after the removal; with
paths this is the `shiftAfterErase` adjustment along the erased subtree. -/
def transferNodeSt (st : TreeState) (p m : List Nat) : TreeState :=
  match getAt st.root p with
  | none => st
  | some v =>
    let t2 := (handleRemove st.root p).1
    let m2 := shiftAfterErase (eraseTargetRev st.root p.reverse).reverse m
    { st with
      root := modifyAt t2 m2.dropLast fun c =>
        match c with
        | .lane s r cs => .lane s r (cs.insertIdx (m2.getLastD 0 + 1) v)
        | c => c }

/-- Embeds `TilingWindowTree::move_container`: refused while fullscreen; an insert
into the same parent swaps the two children, an insert elsewhere transfers
the node after the target, and the append/prepend outcomes detach the node
and graft it at the end/start of the (possibly new) root. -/
def moveContainer (st : TreeState) (d : Dir) (p : List Nat) :
    Bool × TreeState × List String :=
  if st.fullscreen then
    (false, st, ["Unable to move active window: fullscreen"])
  else
    match handleMove st p d with
    | (st1, .insert m, p1) =>
      if m = [] then
        (false, st1, ["Unable to move active window: second_window has no second_parent"])
      else if m.dropLast = p1.dropLast then
        (true,
         { st1 with
           root := swapChildren st1.root p1.dropLast (p1.getLastD 0) (m.getLastD 0) },
         [])
      else (true, transferNodeSt st1 p1 m, [])
    | (st1, .toAppend, p1) =>
      match getAt st1.root p1 with
      | none => (false, st1, [])
      | some v =>
        let t2 := (handleRemove st1.root p1).1
        (true, { st1 with root := graftRoot t2 t2.children.length v }, [])
    | (st1, .toPrepend, p1) =>
      match getAt st1.root p1 with
      | none => (false, st1, [])
      | some v =>
        let t2 := (handleRemove st1.root p1).1
        (true, { st1 with root := graftRoot t2 0 v }, [])
    | (st1, .invalid, _) => (false, st1, ["Unable to move window"])

/-!
Lemmas about the navigation scans
-/

theorem closestResults_eq_map (cs : List Ctr) (d : Dir) :
    closestResults cs d = cs.map (getClosestPath · d) := by
  induction cs with
  | nil => rfl
  | cons c rest ih => simp [closestResults, ih]

theorem revIdxs_succ_of_pos (n : Nat) (h : 0 < n) :
    revIdxs (n + 1) = n :: revIdxs n := by
  unfold revIdxs
  rw [List.range_succ, List.reverse_append, List.reverse_singleton]
  cases hn : (List.range n).reverse with
  | nil =>
    exfalso
    have : (List.range n).reverse.length = 0 := by rw [hn]; rfl
    simp at this
    omega
  | cons a l => simp

theorem pickIdx_cons_some (subs : List (Option (List Nat))) (i : Nat)
    (idxs : List Nat) (u : List Nat) (h : subs.getD i none = some u) :
    pickIdx subs (i :: idxs) = some (i :: u) := by
  rw [List.getD_eq_getElem?_getD] at h
  simp [pickIdx, List.findSome?_cons, h]

/-- Any successful scan result is the chosen index consed onto the child's
own path, hence never the empty path. -/
theorem pickIdx_ne_nil (subs : List (Option (List Nat))) (idxs : List Nat)
    (l : List Nat) (h : pickIdx subs idxs = some l) : l ≠ [] := by
  obtain ⟨i, _, hi⟩ := List.exists_of_findSome?_eq_some h
  obtain ⟨u, _, hu⟩ := Option.map_eq_some'.mp hi
  simp [← hu]

/-- A lane's scan never returns the empty relative path: `some []` from
`get_closest_window_to_select_from_node` identifies the node itself, i.e. a
leaf. -/
theorem isLeaf_of_getClosestPath_nil (c : Ctr) (d : Dir)
    (h : getClosestPath c d = some []) : c.isLeaf = true := by
  cases c with
  | leaf r => rfl
  | lane s r cs =>
    exfalso
    simp only [getClosestPath] at h
    split at h
    · split at h
      · split at h
        next u heq =>
          cases h
          exact pickIdx_ne_nil _ _ _ heq rfl
        next => exact pickIdx_ne_nil _ _ _ h rfl
      · exact pickIdx_ne_nil _ _ _ h rfl
    · exact pickIdx_ne_nil _ _ _ h rfl

theorem closestResults_getD_last (cs : List Ctr) (d : Dir) (hne : cs ≠ []) :
    (closestResults cs d).getD (cs.length - 1) none
      = getClosestPath (cs.getLast hne) d := by
  rw [closestResults_eq_map]
  have hlt : cs.length - 1 < cs.length := by
    have := List.length_pos.mpr hne
    omega
  rw [List.getLast_eq_getElem]
  rw [List.getD_eq_getElem?_getD, List.getElem?_map]
  rw [List.getElem?_eq_getElem hlt]
  rfl

/-- The climb returns the descent through the first ancestor (innermost
first) whose step target exists; once an ancestor steps, its descent result
is final even when empty. -/
theorem climbRev_eq_findSome (t : Ctr) (d : Dir) (rp : List Nat) :
    climbRev t d rp = ((ancSteps t d rp).findSome? id).bind (descend t d) := by
  induction rp with
  | nil => rfl
  | cons i qrev ih =>
    simp only [climbRev, ancSteps, List.findSome?_cons]
    cases h : stepTarget t qrev.reverse i d with
    | some step => simp
    | none => simpa using ih

/-- The ancestors visited from path `p` are exactly the pairs
`(p.take j, p[j])` for `j = p.length - 1` down to `0`. -/
theorem ancSteps_reverse (t : Ctr) (d : Dir) (p : List Nat) :
    ancSteps t d p.reverse
      = (List.range p.length).reverse.map fun j =>
          stepTarget t (p.take j) (p.getD j 0) d := by
  induction p using List.reverseRecOn with
  | nil => rfl
  | append_singleton ps a ih =>
    rw [List.reverse_append, List.reverse_singleton, List.singleton_append,
      ancSteps, List.reverse_reverse, ih, List.length_append]
    simp only [List.length_singleton, List.range_succ, List.reverse_append,
      List.reverse_singleton, List.singleton_append, List.map_cons]
    congr 1
    · rw [List.take_left]
      congr 1
      rw [List.getD_eq_getElem?_getD, List.getElem?_append_right (Nat.le_refl _)]
      simp
    · apply List.map_congr_left
      intro j hj
      have hjlt : j < ps.length := by
        rw [List.mem_reverse, List.mem_range] at hj
        exact hj
      rw [List.take_append_of_le_length (Nat.le_of_lt hjlt)]
      congr 1
      rw [List.getD_eq_getElem?_getD, List.getD_eq_getElem?_getD,
        List.getElem?_append_left hjlt]

/-- Inversion for a successful step: the ancestor is an axis-matching lane
and the target is the adjacent sibling in the direction's sign. -/
theorem stepTarget_some_inv {t : Ctr} {q : List Nat} {i : Nat} {d : Dir}
    {st : List Nat} (h : stepTarget t q i d = some st) :
    ∃ s pr cs, getAt t q = some (.lane s pr cs)
      ∧ axisMatchSel (isVerticalDir d) s = true
      ∧ (if isNegativeDir d = true
          then 0 < i ∧ st = q ++ [i - 1]
          else (i : Int) < (cs.length : Int) - 1 ∧ st = q ++ [i + 1]) := by
  unfold stepTarget at h
  cases hg : getAt t q with
  | none => rw [hg] at h; cases h
  | some c =>
    cases c with
    | leaf r => rw [hg] at h; cases h
    | lane s pr cs =>
      rw [hg] at h
      simp only at h
      refine ⟨s, pr, cs, rfl, ?_, ?_⟩
      · by_contra hax
        rw [Bool.not_eq_true] at hax
        rw [hax] at h
        cases h
      · have hax : axisMatchSel (isVerticalDir d) s = true := by
          by_contra hax
          rw [Bool.not_eq_true] at hax
          rw [hax] at h
          cases h
        rw [hax] at h
        simp only [if_true] at h
        by_cases hneg : isNegativeDir d = true
        · rw [hneg] at h
          simp only [if_true] at h
          rw [if_pos hneg]
          by_cases hi : 0 < i
          · rw [if_pos hi] at h
            cases h
            exact ⟨hi, rfl⟩
          · rw [if_neg hi] at h
            cases h
        · rw [Bool.not_eq_true] at hneg
          rw [hneg] at h
          simp only [Bool.false_eq_true, if_false] at h
          rw [if_neg (by simp [hneg])]
          by_cases hi : (i : Int) < (cs.length : Int) - 1
          · rw [if_pos hi] at h
            cases h
            exact ⟨hi, rfl⟩
          · rw [if_neg hi] at h
            cases h

theorem getAt_append (t : Ctr) (a b : List Nat) :
    getAt t (a ++ b) = (getAt t a).bind fun c => getAt c b := by
  induction a generalizing t with
  | nil => simp [getAt]
  | cons i rest ih =>
    cases t with
    | leaf r => rfl
    | lane s r cs =>
      simp only [List.cons_append, getAt]
      cases cs[i]? with
      | none => rfl
      | some c => exact ih c

theorem getAt_nil (c : Ctr) : getAt c [] = some c := by
  cases c <;> rfl

theorem getAt_one (c : Ctr) (i : Nat) : getAt c [i] = c.children[i]? := by
  cases c with
  | leaf r => simp [getAt, Ctr.children]
  | lane s r cs =>
    simp only [getAt, Ctr.children]
    cases cs[i]? <;> rfl

theorem isVerticalDir_opp (d : Dir) :
    isVerticalDir (oppositeDir d) = isVerticalDir d := by
  cases d <;> rfl

theorem isNegativeDir_opp (d : Dir) :
    isNegativeDir (oppositeDir d) = !isNegativeDir d := by
  cases d <;> rfl

/-!
Lemmas about removal and the no-empty-lane invariant
-/

theorem noEmptyLanesAll_eq_all (cs : List Ctr) :
    noEmptyLanesAll cs = cs.all noEmptyLanes := by
  induction cs with
  | nil => rfl
  | cons c rest ih => simp [noEmptyLanesAll, List.all_cons, ih]

theorem noEmptyLanesAll_eraseIdx (cs : List Ctr) (i : Nat)
    (h : noEmptyLanesAll cs = true) :
    noEmptyLanesAll (cs.eraseIdx i) = true := by
  rw [noEmptyLanesAll_eq_all, List.all_eq_true] at h ⊢
  intro c hc
  exact h c ((List.eraseIdx_sublist cs i).subset hc)

theorem noEmptyLanesAll_set (cs : List Ctr) (i : Nat) (c2 : Ctr)
    (h : noEmptyLanesAll cs = true) (h2 : noEmptyLanes c2 = true) :
    noEmptyLanesAll (cs.set i c2) = true := by
  rw [noEmptyLanesAll_eq_all, List.all_eq_true] at h ⊢
  intro c hc
  rcases List.mem_or_eq_of_mem_set hc with hmem | heq
  · exact h c hmem
  · rw [heq]
    exact h2

theorem noEmptyLanes_of_mem (cs : List Ctr) (c : Ctr)
    (h : noEmptyLanesAll cs = true) (hc : c ∈ cs) : noEmptyLanes c = true := by
  rw [noEmptyLanesAll_eq_all, List.all_eq_true] at h
  exact h c hc

theorem noEmptyLanesAll_children (c : Ctr) (h : noEmptyLanes c = true) :
    noEmptyLanesAll c.children = true := by
  cases c with
  | leaf r => rfl
  | lane s r cs =>
    simp only [noEmptyLanes, Bool.and_eq_true] at h
    exact h.2

/-- Removal never creates an empty lane among the descendants: the cascade
erases any child that would become one. -/
theorem childrenWF_removeNodeAt : ∀ (p : List Nat) (t : Ctr),
    noEmptyLanesAll t.children = true →
    noEmptyLanesAll (removeNodeAt t p).children = true := by
  intro p
  induction p with
  | nil =>
    intro t h
    simpa [removeNodeAt] using h
  | cons i rest ih =>
    intro t h
    cases t with
    | leaf r => cases rest <;> simpa [removeNodeAt] using h
    | lane s r cs =>
      simp only [Ctr.children] at h
      cases rest with
      | nil =>
        simp only [removeNodeAt, Ctr.children]
        exact noEmptyLanesAll_eraseIdx cs i h
      | cons j rest2 =>
        cases hg : cs[i]? with
        | none => simpa [removeNodeAt, hg, Ctr.children] using h
        | some c =>
          have hmem : c ∈ cs := List.getElem?_mem hg
          have hcwf : noEmptyLanes c = true := noEmptyLanes_of_mem cs c h hmem
          have hc2wf := ih c (noEmptyLanesAll_children c hcwf)
          by_cases hemp : (removeNodeAt c (j :: rest2)).isEmptyLane = true
          · simp only [removeNodeAt, hg, hemp, if_true, Ctr.children]
            exact noEmptyLanesAll_eraseIdx cs i h
          · simp only [removeNodeAt, hg, hemp, if_false, Ctr.children]
            refine noEmptyLanesAll_set cs i _ h ?_
            cases hc : removeNodeAt c (j :: rest2) with
            | leaf r2 => rfl
            | lane s2 r2 cs2 =>
              rw [hc] at hemp hc2wf
              cases cs2 with
              | nil => exact absurd rfl hemp
              | cons d ds =>
                simp only [Ctr.children] at hc2wf
                simp [noEmptyLanes, hc2wf]

theorem rootWF_eq_childrenWF (c : Ctr) :
    rootWF c = noEmptyLanesAll c.children := by
  cases c <;> rfl

theorem rootWF_handleRemove (t : Ctr) (p : List Nat)
    (h : rootWF t = true) : rootWF (handleRemove t p).1 = true := by
  rw [rootWF_eq_childrenWF] at h ⊢
  unfold handleRemove
  split
  · exact h
  · split
    · split
      · exact childrenWF_removeNodeAt _ t h
      · exact childrenWF_removeNodeAt _ t h
    · exact h

/-!
Lemmas about a single-child root
-/

theorem hasNeighborRev_solo_child (s2 : LayoutScheme) (r : Rect) (v : Ctr)
    (ds : LayoutScheme) (cn : Nat) :
    hasNeighborRev (.lane s2 r [v]) [0] ds cn = false := by
  rw [hasNeighborRev]
  simp only [List.reverse_nil, getAt]
  split
  · rfl
  · simp [hasNeighborRev]

/-- The sole child of the root has no gap on any side: its visible area is
the logical area shrunk by the border alone, whatever the root's scheme. -/
theorem getVisibleArea_solo_child (s2 : LayoutScheme) (r : Rect) (v : Ctr)
    (gx gy b : Int) :
    getVisibleArea (.lane s2 r [v]) [0] gx gy b
      = ⟨v.area.x + b, v.area.y + b, v.area.w - 2 * b, v.area.h - 2 * b⟩ := by
  have hg : getAt (Ctr.lane s2 r [v]) [0] = some v := by
    rw [getAt_one]
    rfl
  unfold getVisibleArea hasLeftNeighbor hasRightNeighbor hasTopNeighbor
    hasBottomNeighbor
  rw [hg]
  simp [hasNeighborRev_solo_child, getAt]

/-!
Claim theorems C1 and C2
-/

/-- Claim C1 (code bug).  Resizing the first of two 100 px leaves rightwards
by 200 px stages the rectangles `[300, -100]`: the second staged width,
`-100`, falls at or below the 50 px minimum, so by the claim the operation
must abort with nothing changed and nothing committed.  The code instead
applies every rectangle and commits both siblings, because the validation
compares the signed dimension with the unsigned `size_t` minimum and `-100`
wraps to a huge unsigned value. -/
theorem c1_resize_negative_dim_escapes_min_check :
    resizeLane resizeBugTree.children 0 200 false resizeBugTree.area
      = some [⟨0, 0, 300, 200⟩, ⟨300, 0, -100, 200⟩]
    ∧ ((-100 : Int) ≤ (50 : Int))
    ∧ handleResize resizeBugTree [0] .right 200
      = (.lane .horizontal ⟨0, 0, 200, 200⟩
          [.leaf ⟨0, 0, 300, 200⟩, .leaf ⟨300, 0, -100, 200⟩],
         [[0], [1]])
    ∧ (handleResize resizeBugTree [0] .right 200).1 ≠ resizeBugTree := by
  have e : handleResize resizeBugTree [0] .right 200
      = (.lane .horizontal ⟨0, 0, 200, 200⟩
          [.leaf ⟨0, 0, 300, 200⟩, .leaf ⟨300, 0, -100, 200⟩],
         [[0], [1]]) := rfl
  refine ⟨rfl, by decide, e, ?_⟩
  rw [e]
  intro h
  simp [resizeBugTree] at h

/-- Claim C2 (code bug, same slip as C1).  After the successful resize of
`resizeBugTree` by 200 px the sibling widths still sum to the parent's
200 px width (the rounding leftover lands on the last sibling), but the
second sibling ends at `-100 ≤ 50`: the claim that no sibling's extent is at
or under its configured minimum after a successful resize fails, because a
negative staged width escapes the signed/unsigned minimum comparison. -/
theorem c2_resize_sum_preserved_but_min_violated :
    ((handleResize resizeBugTree [0] .right 200).1.children.map
        fun c => c.area.w).sum = resizeBugTree.area.w
    ∧ (∃ c, c ∈ (handleResize resizeBugTree [0] .right 200).1.children
        ∧ c.area.w ≤ (c.minW : Int))
    ∧ (handleResize resizeBugTree [0] .right 200).2 ≠ [] := by
  refine ⟨rfl, ⟨.leaf ⟨300, 0, -100, 200⟩, ?_, by decide⟩, by decide⟩
  exact List.Mem.tail _ (List.Mem.head _)

/-- Claim C7 (confirmed).  `get_closest_window_to_select_from_node` returns
a leaf node itself, and on a lane whose scheme matches the incoming
direction's axis, for a negative direction, the reverse scan (indices
`n-1 … 1`) runs before the forward scan, so whenever the last child's own
descent succeeds the returned leaf is the descent into the last
(rightmost/bottommost) child.  The `n = 1` case falls through to the
forward scan, which picks the same sole (hence last) child. -/
theorem c7_closest_reverse_scan_lands_on_last :
    (∀ (r : Rect) (d : Dir), getClosestPath (.leaf r) d = some [])
    ∧ ∀ (s : LayoutScheme) (r : Rect) (cs : List Ctr) (d : Dir) (u : List Nat)
        (hne : cs ≠ []),
        ((isVerticalDir d && s = .vertical)
          || (!isVerticalDir d && s = .horizontal)) = true →
        isNegativeDir d = true →
        getClosestPath (cs.getLast hne) d = some u →
        getClosestPath (.lane s r cs) d = some ((cs.length - 1) :: u) := by
  refine ⟨fun r d => rfl, ?_⟩
  intro s r cs d u hne hm hneg hu
  have hgetD : (closestResults cs d).getD (cs.length - 1) none = some u := by
    rw [closestResults_getD_last cs d hne, hu]
  obtain ⟨m, hlen⟩ : ∃ m, cs.length = m + 1 :=
    ⟨cs.length - 1, by have := List.length_pos.mpr hne; omega⟩
  simp only [getClosestPath, hm, hneg, if_true]
  cases m with
  | zero =>
    rw [hlen]
    have hrev : revIdxs 1 = [] := rfl
    rw [hrev]
    have hnone : pickIdx (closestResults cs d) [] = none := rfl
    rw [hnone]
    have h0 : (closestResults cs d).getD 0 none = some u := by
      rw [← hgetD, hlen]
    have hr1 : List.range 1 = [0] := rfl
    rw [hr1]
    exact pickIdx_cons_some (closestResults cs d) 0 [] u h0
  | succ k =>
    rw [hlen, revIdxs_succ_of_pos (k + 1) (Nat.succ_pos k)]
    have hk : (closestResults cs d).getD (k + 1) none = some u := by
      rw [← hgetD, hlen]
      norm_num
    rw [pickIdx_cons_some (closestResults cs d) (k + 1) (revIdxs (k + 1)) u hk]
    simp [hlen]

/-- Witness for C7: in a horizontal lane holding a leaf and a nested
two-leaf horizontal lane, navigating leftwards into the lane lands on the
rightmost leaf of the nested lane. -/
theorem c7_closest_reverse_scan_lands_on_last_witness :
    getClosestPath
      (.lane .horizontal ⟨0, 0, 300, 100⟩
        [.leaf ⟨0, 0, 100, 100⟩,
         .lane .horizontal ⟨100, 0, 200, 100⟩
           [.leaf ⟨100, 0, 100, 100⟩, .leaf ⟨200, 0, 100, 100⟩]])
      .left = some [1, 1] := by
  have h := c7_closest_reverse_scan_lands_on_last.2 .horizontal ⟨0, 0, 300, 100⟩
    [.leaf ⟨0, 0, 100, 100⟩,
     .lane .horizontal ⟨100, 0, 200, 100⟩
       [.leaf ⟨100, 0, 100, 100⟩, .leaf ⟨200, 0, 100, 100⟩]]
    .left [1] (by simp) rfl rfl (by rfl)
  simpa using h

/-- Claim C3 (confirmed).  `handle_select` climbs the ancestor chain from
the immediate parent (`j = p.length - 1`) to the root (`j = 0`): the first
ancestor producing a step target decides the result via the descent, and if
no ancestor produces one the result is `none`.  A step target exists exactly
when the ancestor is a lane whose axis matches the direction's axis
(vertical direction ⇒ vertical scheme; horizontal direction ⇒ horizontal or
tabbing scheme) and the child is not at the extremity implied by the
direction's sign; the step goes to index `i-1` for negative directions and
`i+1` for positive ones. -/
theorem c3_select_climbs_ancestor_chain :
    (∀ (t : Ctr) (p : List Nat) (d : Dir),
      handleSelect t p d
        = (((List.range p.length).reverse.map fun j =>
              stepTarget t (p.take j) (p.getD j 0) d).findSome? id).bind
            (descend t d))
    ∧ ∀ (t : Ctr) (q : List Nat) (i : Nat) (d : Dir) (st : List Nat),
        stepTarget t q i d = some st →
        ∃ s pr cs, getAt t q = some (.lane s pr cs)
          ∧ axisMatchSel (isVerticalDir d) s = true
          ∧ (if isNegativeDir d = true
              then 0 < i ∧ st = q ++ [i - 1]
              else (i : Int) < (cs.length : Int) - 1 ∧ st = q ++ [i + 1]) := by
  constructor
  · intro t p d
    rw [handleSelect, climbRev_eq_findSome, ancSteps_reverse]
  · intro t q i d st h
    exact stepTarget_some_inv h

/-- Witness for C3: the climb equation evaluated on a concrete
two-level tree, where selecting rightwards from the first leaf steps at the
root and descends into the nested lane. -/
theorem c3_select_climbs_ancestor_chain_witness :
    handleSelect
      (.lane .horizontal ⟨0, 0, 300, 100⟩
        [.leaf ⟨0, 0, 100, 100⟩,
         .lane .horizontal ⟨100, 0, 200, 100⟩
           [.leaf ⟨100, 0, 100, 100⟩, .leaf ⟨200, 0, 100, 100⟩]])
      [0] .right = some [1, 0]
    ∧ ((((List.range ([0] : List Nat).length).reverse.map fun j =>
          stepTarget
            (.lane .horizontal ⟨0, 0, 300, 100⟩
              [.leaf ⟨0, 0, 100, 100⟩,
               .lane .horizontal ⟨100, 0, 200, 100⟩
                 [.leaf ⟨100, 0, 100, 100⟩, .leaf ⟨200, 0, 100, 100⟩]])
            (List.take j [0]) ([0].getD j 0) .right).findSome? id).bind
        (descend
          (.lane .horizontal ⟨0, 0, 300, 100⟩
            [.leaf ⟨0, 0, 100, 100⟩,
             .lane .horizontal ⟨100, 0, 200, 100⟩
               [.leaf ⟨100, 0, 100, 100⟩, .leaf ⟨200, 0, 100, 100⟩]])
          .right)) = some [1, 0] := by
  constructor
  · rfl
  · rw [← c3_select_climbs_ancestor_chain.1]
    rfl

/-- Claim C8 (confirmed).  Select round-trip: if `handle_select` from leaf
`L` in direction `d` returns a leaf `M` that is a sibling of `L` (same
parent), then `handle_select` from `M` in the opposite direction returns
`L`.  The sibling hypothesis forces the climb to have stepped at the common
parent itself, whose axis matches both `d` and its opposite, and the
adjacent index steps cancel. -/
theorem c8_select_round_trip (t : Ctr) (p m : List Nat) (d : Dir) (rL : Rect)
    (hleaf : getAt t p = some (.leaf rL))
    (hsel : handleSelect t p d = some m)
    (hsib : m.dropLast = p.dropLast) :
    handleSelect t m (oppositeDir d) = some p := by
  rw [handleSelect, climbRev_eq_findSome, ancSteps_reverse] at hsel
  obtain ⟨st, hfind, hdesc⟩ := Option.bind_eq_some.mp hsel
  rw [List.findSome?_map] at hfind
  obtain ⟨j, hjmem, hst⟩ := List.exists_of_findSome?_eq_some hfind
  simp only [Function.comp, id] at hst
  have hjlt : j < p.length := by
    rw [List.mem_reverse, List.mem_range] at hjmem
    exact hjmem
  obtain ⟨s, pr, cs, hlane, hax, hcond⟩ := stepTarget_some_inv hst
  -- extract the step shape: st = p.take j ++ [x] with x adjacent to p[j]
  obtain ⟨x, hxst, hxne⟩ :
      ∃ x, st = p.take j ++ [x] ∧ x ≠ p.getD j 0 := by
    by_cases hneg : isNegativeDir d = true
    · rw [if_pos hneg] at hcond
      exact ⟨p.getD j 0 - 1, hcond.2, by omega⟩
    · rw [if_neg hneg] at hcond
      exact ⟨p.getD j 0 + 1, hcond.2, by omega⟩
  -- unpack the descent
  unfold descend at hdesc
  cases hgst : getAt t st with
  | none => rw [hgst] at hdesc; cases hdesc
  | some c =>
    rw [hgst] at hdesc
    obtain ⟨rr, hrr, hm⟩ := Option.map_eq_some'.mp hdesc
    -- lengths
    have htakelen : (p.take j).length = j := by
      rw [List.length_take]
      omega
    have hmlen : m.length = j + 1 + rr.length := by
      rw [← hm, hxst, List.length_append, List.length_append, htakelen]
      rfl
    have hdllen : m.length - 1 = p.length - 1 := by
      have := congrArg List.length hsib
      simpa [List.length_dropLast] using this
    have hmp : m.length = p.length := by omega
    have hrrlen : rr.length = p.length - j - 1 := by omega
    -- the step must have happened at the immediate parent
    have hj : j = p.length - 1 := by
      by_contra hjne
      have hjlt2 : j < p.length - 1 := by omega
      have hrrne : rr.length ≥ 1 := by omega
      -- compare index j of the two dropLasts
      have hmj : m[j]? = some x := by
        rw [← hm, hxst, List.append_assoc,
          List.getElem?_append_right (by simp [htakelen])]
        rw [htakelen]
        simp
      have hpj : p[j]? = some (p.getD j 0) := by
        rw [List.getD_eq_getElem?_getD, List.getElem?_eq_getElem hjlt]
        rfl
      have hdj : m.dropLast[j]? = p.dropLast[j]? := by rw [hsib]
      rw [List.dropLast_eq_take, List.dropLast_eq_take, List.getElem?_take,
        List.getElem?_take, if_pos (by omega), if_pos (by omega), hmj, hpj] at hdj
      exact hxne (by injection hdj)
    -- hence the descent target is the sibling itself and it is a leaf
    have hrrnil : rr = [] := List.length_eq_zero.mp (by omega)
    have hmst : m = st := by rw [← hm, hrrnil, List.append_nil]
    rw [hrrnil] at hrr
    have hpne : p ≠ [] := by
      intro hpn
      rw [hpn] at hjlt
      cases hjlt
    have hpgetD : p = p.take j ++ [p.getD j 0] := by
      rw [List.getD_eq_getElem?_getD, hj,
        List.getElem?_eq_getElem (by omega : p.length - 1 < p.length),
        Option.getD_some, ← List.getLast_eq_getElem p hpne,
        ← List.dropLast_eq_take]
      exact (List.dropLast_append_getLast hpne).symm
    -- bound: p.getD j 0 addresses a child of cs
    have hchild : cs[p.getD j 0]? = some (.leaf rL) := by
      have := hleaf
      rw [hpgetD, getAt_append, hlane, Option.some_bind, getAt_one] at this
      simpa [Ctr.children] using this
    have hbound : p.getD j 0 < cs.length := by
      have := List.getElem?_eq_some.mp hchild
      exact this.1
    -- now compute the reverse selection
    rw [handleSelect]
    have hmrev : m.reverse = x :: (p.take j).reverse := by
      rw [hmst, hxst, List.reverse_append]
      rfl
    rw [hmrev]
    simp only [climbRev, List.reverse_reverse]
    have hstep2 : stepTarget t (p.take j) x (oppositeDir d)
        = some (p.take j ++ [p.getD j 0]) := by
      unfold stepTarget
      rw [hlane]
      simp only [isVerticalDir_opp, hax, if_true, isNegativeDir_opp]
      by_cases hneg : isNegativeDir d = true
      · -- the original step was negative, so x = p.getD j 0 - 1 and the
        -- opposite direction steps positively back
        rw [if_pos hneg] at hcond
        obtain ⟨hipos, hxeq⟩ := hcond
        have hxval : x = p.getD j 0 - 1 := by
          have hcc := List.append_cancel_left (hxst.symm.trans hxeq)
          injection hcc
        rw [hneg]
        simp only [Bool.not_true, Bool.false_eq_true, if_false]
        rw [if_pos (by omega : (x : Int) < (cs.length : Int) - 1)]
        have hx1 : x + 1 = p.getD j 0 := by omega
        rw [hx1]
      · rw [if_neg hneg] at hcond
        obtain ⟨hilt, hxeq⟩ := hcond
        have hxval : x = p.getD j 0 + 1 := by
          have hcc := List.append_cancel_left (hxst.symm.trans hxeq)
          injection hcc
        rw [Bool.not_eq_true] at hneg
        rw [hneg]
        simp only [Bool.not_false, if_true]
        rw [if_pos (by omega : 0 < x)]
        have hx1 : x - 1 = p.getD j 0 := by omega
        rw [hx1]
    rw [hstep2]
    simp only
    unfold descend
    rw [← hpgetD, hleaf]
    simp [getClosestPath]

/-- Witness for C8: in `twoLeafTree`, selecting right from the first leaf
reaches the second, and selecting left from there returns to the first. -/
theorem c8_select_round_trip_witness :
    handleSelect twoLeafTree [0] .right = some [1]
    ∧ handleSelect twoLeafTree [1] (oppositeDir .right) = some [0] :=
  ⟨by rfl,
   c8_select_round_trip twoLeafTree [0] [1] .right ⟨0, 0, 100, 100⟩
     (by rfl) (by rfl) (by rfl)⟩

/-- Claim C4 (confirmed; `ParentContainer::remove` modelled from the spec
with its cascading clause).  `handle_remove` detaches the node; when the
parent holds only that node and is itself non-root, the whole lane is
removed from the grandparent and the grandparent is the returned
parent-to-commit.  Consequently the invariant that no non-root lane has
zero children is preserved across any sequence of removals. -/
theorem c4_remove_preserves_no_empty_lanes :
    (∀ (t : Ctr) (p : List Nat) (s : LayoutScheme) (r : Rect) (c : Ctr),
      p ≠ [] → p.dropLast ≠ [] →
      getAt t p.dropLast = some (.lane s r [c]) →
      handleRemove t p = (removeNodeAt t p.dropLast, some p.dropLast.dropLast))
    ∧ ∀ (ops : List (List Nat)) (t : Ctr), rootWF t = true →
        rootWF (ops.foldl (fun acc p => (handleRemove acc p).1) t) = true := by
  constructor
  · intro t p s r c hp hq hget
    unfold handleRemove
    rw [if_neg hp, hget]
    exact if_pos ⟨rfl, hq⟩
  · intro ops
    induction ops with
    | nil => intro t h; exact h
    | cons p rest ih =>
      intro t h
      exact ih _ (rootWF_handleRemove t p h)

/-- Witness for C4: removing the sole leaf of a nested vertical lane makes
`handle_remove` delete the lane from the root (its grandparent) instead,
and the no-empty-lane invariant survives. -/
theorem c4_remove_preserves_no_empty_lanes_witness :
    handleRemove
        (.lane .horizontal ⟨0, 0, 200, 100⟩
          [.leaf ⟨0, 0, 100, 100⟩,
           .lane .vertical ⟨100, 0, 100, 100⟩ [.leaf ⟨100, 0, 100, 100⟩]])
        [1, 0]
      = (.lane .horizontal ⟨0, 0, 200, 100⟩ [.leaf ⟨0, 0, 100, 100⟩], some [])
    ∧ rootWF
        ([[1, 0]].foldl (fun acc p => (handleRemove acc p).1)
          (.lane .horizontal ⟨0, 0, 200, 100⟩
            [.leaf ⟨0, 0, 100, 100⟩,
             .lane .vertical ⟨100, 0, 100, 100⟩ [.leaf ⟨100, 0, 100, 100⟩]]))
      = true := by
  constructor
  · rw [c4_remove_preserves_no_empty_lanes.1
      (.lane .horizontal ⟨0, 0, 200, 100⟩
        [.leaf ⟨0, 0, 100, 100⟩,
         .lane .vertical ⟨100, 0, 100, 100⟩ [.leaf ⟨100, 0, 100, 100⟩]])
      [1, 0] .vertical ⟨100, 0, 100, 100⟩ (.leaf ⟨100, 0, 100, 100⟩)
      (by simp) (by simp) (by rfl)]
    rfl
  · exact c4_remove_preserves_no_empty_lanes.2 [[1, 0]] _ (by rfl)

/-- Soundness of the (spec-modelled) depth-first search: a returned path
addresses a node satisfying the test. -/
theorem findWhere_sound :
    ∀ (c : Ctr) (pred : Ctr → Bool) (q : List Nat),
      findWhere c pred = some q →
      ∃ v, getAt c q = some v ∧ pred v = true := by
  intro c0 pred0
  refine findWhere.induct
    (fun c pred => ∀ q, findWhere c pred = some q →
      ∃ v, getAt c q = some v ∧ pred v = true)
    (fun cs pred => ∀ q, findWhereList cs pred = some q →
      ∃ i rp v, (∃ c2, cs[i]? = some c2 ∧ getAt c2 rp = some v)
        ∧ q = i :: rp ∧ pred v = true)
    ?_ ?_ ?_ ?_ ?_ ?_ ?_ c0 pred0
  · intro c pred hp q hq
    rw [findWhere.eq_def] at hq
    dsimp only at hq
    rw [if_pos hp] at hq
    cases hq
    exact ⟨c, getAt_nil c, hp⟩
  · intro pred r hp q hq
    rw [findWhere.eq_def] at hq
    dsimp only at hq
    rw [if_neg hp] at hq
    exact Option.noConfusion hq
  · intro pred s r cs hp ih q hq
    rw [findWhere.eq_def] at hq
    dsimp only at hq
    rw [if_neg hp] at hq
    obtain ⟨i, rp, v, ⟨c2, hc2, hget⟩, hqe, hpv⟩ := ih q hq
    refine ⟨v, ?_, hpv⟩
    rw [hqe]
    simp only [getAt, hc2]
    exact hget
  · intro pred q hq
    cases hq
  · intro c rest pred r hr ih1 q hq
    rw [findWhereList.eq_def] at hq
    dsimp only at hq
    rw [hr] at hq
    cases hq
    obtain ⟨v, hv, hpv⟩ := ih1 r hr
    exact ⟨0, r, v, ⟨c, by simp, hv⟩, rfl, hpv⟩
  · intro c rest pred hnone i rp hrest ih1 ih2 q hq
    rw [findWhereList.eq_def] at hq
    dsimp only at hq
    rw [hnone, hrest] at hq
    cases hq
    obtain ⟨i2, rp2, v, ⟨c2, hc2, hget⟩, hqe, hpv⟩ := ih2 (i :: rp) hrest
    injection hqe with he1 he2
    refine ⟨i2 + 1, rp2, v, ⟨c2, by simpa using hc2, hget⟩, ?_, hpv⟩
    rw [he1, he2]
  · intro c rest pred hnone hrest ih1 ih2 q hq
    rw [findWhereList.eq_def] at hq
    dsimp only at hq
    rw [hnone] at hq
    revert hq
    cases hlist : findWhereList rest pred with
    | none => intro hq; cases hq
    | some l =>
      cases l with
      | nil => intro hq; cases hq
      | cons i rp => exact absurd hlist fun h => hrest i rp h

/-- Claim C9 (code bug).  In `gapBugTree` the top leaf of the nested
vertical lane touches the right screen edge (its right edge equals the
root's right edge) and the spec-side neighbor relation agrees there is no
right neighbor, yet the code's `has_right_neighbor` reports one — it reuses
the immediate parent's `num_nodes()-1 = 1` as the forbidden index while the
root lane's own extremity index is `2` — so `get_visible_area` shaves half
the inner gap off the screen-edge side: with gaps 10 and border 1 the
visible area is `(206, 1, 88, 43)` instead of the gap-free
`(206, 1, 93, 43)`. -/
theorem c9_right_gap_applied_at_screen_edge :
    hasRightNeighbor gapBugTree [2, 0] = true
    ∧ hasRightNeighborSpec gapBugTree [2, 0] = false
    ∧ (getAt gapBugTree [2, 0]).map (fun c => c.area.x + c.area.w)
        = some (gapBugTree.area.x + gapBugTree.area.w)
    ∧ getVisibleArea gapBugTree [2, 0] 10 10 1 = ⟨206, 1, 88, 43⟩ :=
  ⟨rfl, rfl, rfl, rfl⟩

/-- Claim C10 (confirmed).  While the fullscreen flag is set,
`select_window_from_point` returns the active container whatever the
coordinates; with the flag clear it searches the tree and any hit is a leaf
whose logical area contains the point. -/
theorem c10_point_select_fullscreen_override :
    (∀ (st : TreeState), st.fullscreen = true → ∀ (x y x2 y2 : Int),
      selectWindowFromPoint st x y = activeContainer st
      ∧ selectWindowFromPoint st x y = selectWindowFromPoint st x2 y2)
    ∧ ∀ (st : TreeState), st.fullscreen = false →
        ∀ (x y : Int) (q : List Nat),
          selectWindowFromPoint st x y = some q →
          ∃ v, getAt st.root q = some v ∧ v.isLeaf = true
            ∧ v.area.containsPt x y = true := by
  constructor
  · intro st h x y x2 y2
    unfold selectWindowFromPoint
    rw [h]
    exact ⟨rfl, rfl⟩
  · intro st h x y q hq
    unfold selectWindowFromPoint at hq
    rw [h] at hq
    simp only [Bool.false_eq_true, if_false] at hq
    obtain ⟨v, hv, hpv⟩ := findWhere_sound st.root _ q hq
    rw [Bool.and_eq_true] at hpv
    exact ⟨v, hv, hpv.1, hpv.2⟩

/-- Witness for C10: with the fullscreen flag set over `twoLeafTree` and
the second leaf active, a point inside the first leaf (and a point inside
no leaf) both select the active second leaf; with the flag clear the same
point selects the first leaf, which contains it. -/
theorem c10_point_select_fullscreen_override_witness :
    selectWindowFromPoint ⟨twoLeafTree, true, some [1], [], 50⟩ 10 10
      = activeContainer ⟨twoLeafTree, true, some [1], [], 50⟩
    ∧ selectWindowFromPoint ⟨twoLeafTree, true, some [1], [], 50⟩ 10 10
      = selectWindowFromPoint ⟨twoLeafTree, true, some [1], [], 50⟩ 5000 5000
    ∧ selectWindowFromPoint ⟨twoLeafTree, true, some [1], [], 50⟩ 10 10 = some [1]
    ∧ (∃ v, getAt twoLeafTree [0] = some v ∧ v.isLeaf = true
        ∧ v.area.containsPt 10 10 = true) := by
  obtain ⟨h1, h2⟩ :=
    (c10_point_select_fullscreen_override.1 ⟨twoLeafTree, true, some [1], [], 50⟩ rfl
      10 10 5000 5000)
  refine ⟨h1, h2, by rfl, ?_⟩
  exact c10_point_select_fullscreen_override.2 ⟨twoLeafTree, false, some [1], [], 50⟩
    rfl 10 10 [0] (by rfl)

/-- Claim C6 (confirmed).  While the tree-wide fullscreen flag is set,
`resize_container`, `select_next` and `move_container` return `false` and
`handle_layout_scheme` makes no change; each failure leaves the tree state
untouched and is reported by the boolean result plus exactly one warning
log line.  The embedded operations are total functions, mirroring that no
exception is used for this control flow. -/
theorem c6_fullscreen_blocks_structural_ops :
    ∀ (st : TreeState), st.fullscreen = true →
      ∀ (d : Dir) (p : List Nat) (scheme : LayoutScheme),
        resizeContainer st d p
          = (false, st, ["Unable to resize the next window: fullscreened"])
        ∧ selectNext st d p
          = (false, st, ["Unable to select the next window: fullscreened"])
        ∧ moveContainer st d p
          = (false, st, ["Unable to move active window: fullscreen"])
        ∧ handleLayoutScheme st scheme p
          = (st, ["Unable to handle direction request: fullscreen"]) := by
  intro st h d p scheme
  unfold resizeContainer selectNext moveContainer handleLayoutScheme
  rw [h]
  simp

/-- Witness for C6: all four structural operations refuse on a fullscreen
state over `twoLeafTree`. -/
theorem c6_fullscreen_blocks_structural_ops_witness :
    resizeContainer ⟨twoLeafTree, true, some [0], [], 50⟩ .right [0]
      = (false, ⟨twoLeafTree, true, some [0], [], 50⟩,
         ["Unable to resize the next window: fullscreened"])
    ∧ selectNext ⟨twoLeafTree, true, some [0], [], 50⟩ .right [0]
      = (false, ⟨twoLeafTree, true, some [0], [], 50⟩,
         ["Unable to select the next window: fullscreened"])
    ∧ moveContainer ⟨twoLeafTree, true, some [0], [], 50⟩ .right [0]
      = (false, ⟨twoLeafTree, true, some [0], [], 50⟩,
         ["Unable to move active window: fullscreen"])
    ∧ handleLayoutScheme ⟨twoLeafTree, true, some [0], [], 50⟩ .vertical [0]
      = (⟨twoLeafTree, true, some [0], [], 50⟩,
         ["Unable to handle direction request: fullscreen"]) :=
  c6_fullscreen_blocks_structural_ops ⟨twoLeafTree, true, some [0], [], 50⟩ rfl
    .right [0] .vertical

/-- Claim C5 (confirmed; `graft_existing`, `ParentContainer::remove` and
the root-area recalculation rely on spec-modelled pieces of the missing
`parent_container.cpp`).  When `handle_move` finds no directional target
and the moving container's parent is the root whose axis differs from the
direction's axis, `move_container` wraps the current root as the sole child
of a brand-new root lane on the direction's axis, recomputes the root area
from the first zone, detaches the moving node and grafts it at the end
(positive direction) or start (negative) of the new root; a sole child of
the root ends as the sole child of the new root with its visible area
unchanged. -/
theorem c5_move_wraps_tree_on_axis_mismatch
    (st : TreeState) (i : Nat) (d : Dir) (s : LayoutScheme) (R : Rect)
    (cs : List Ctr) (v : Ctr)
    (hfs : st.fullscreen = false)
    (hroot : st.root = .lane s R cs)
    (hsel : handleSelect st.root [i] d = none)
    (haxis : fromDirection d ≠ s)
    (hzone : st.zones = [R])
    (hv : cs[i]? = some v) :
    moveContainer st d [i]
      = (true,
         { st with root := (Ctr.lane (fromDirection d) R
             (if cs.length = 1 then [v]
              else if isNegativeDir d = true then [v, Ctr.lane s R (cs.eraseIdx i)]
              else [Ctr.lane s R (cs.eraseIdx i), v])) },
         [])
    ∧ (cs = [v] → ∀ (gx gy b : Int),
        getVisibleArea (moveContainer st d [i]).2.1.root [0] gx gy b
          = getVisibleArea st.root [0] gx gy b) := by
  obtain ⟨rt, fs, ac, zs, rj⟩ := st
  simp only at hfs hroot hzone hsel ⊢
  subst hfs
  subst hroot
  subst hzone
  have hilt : i < cs.length := (List.getElem?_eq_some.mp hv).1
  have hgv : getAt (Ctr.lane (fromDirection d) R [Ctr.lane s R cs]) [0, i]
      = some v := by
    simp [getAt, hv, getAt_nil]
  have hrem : (handleRemove (Ctr.lane (fromDirection d) R [Ctr.lane s R cs]) [0, i]).1
      = (if cs.length = 1 then Ctr.lane (fromDirection d) R []
         else Ctr.lane (fromDirection d) R [Ctr.lane s R (cs.eraseIdx i)]) := by
    unfold handleRemove
    rw [if_neg (by simp : ¬([0, i] : List Nat) = [])]
    have hga : getAt (Ctr.lane (fromDirection d) R [Ctr.lane s R cs])
        (([0, i] : List Nat).dropLast) = some (.lane s R cs) := by
      rw [show (([0, i] : List Nat).dropLast) = [0] from rfl, getAt_one]
      rfl
    rw [hga]
    by_cases hlen : cs.length = 1
    · simp only [if_pos hlen]
      simp [hlen, removeNodeAt]
    · have hcs2 : (Ctr.lane s R (cs.eraseIdx i)).isEmptyLane = false := by
        cases he : cs.eraseIdx i with
        | nil =>
          exfalso
          have hle := congrArg List.length he
          rw [List.length_eraseIdx] at hle
          simp only [if_pos hilt, List.length_nil] at hle
          omega
        | cons a l => rfl
      simp only [if_neg hlen]
      simp [hlen, removeNodeAt, hcs2]
  have hmove : handleMove ⟨Ctr.lane s R cs, false, ac, [R], rj⟩ [i] d
      = (⟨Ctr.lane (fromDirection d) R [Ctr.lane s R cs], false, ac, [R], rj⟩,
         if isNegativeDir d = true then MoveRes.toPrepend else MoveRes.toAppend,
         [0, i]) := by
    unfold handleMove
    rw [hsel]
    rw [if_pos (show ([i] : List Nat).dropLast = [] ∧ ([i] : List Nat) ≠ []
      from ⟨rfl, by simp⟩)]
    rw [if_neg (show ¬fromDirection d = (Ctr.lane s R cs).laneScheme from haxis)]
    unfold recalcRoot
    simp [Ctr.withArea, Ctr.area]
  have hconj1 : moveContainer ⟨Ctr.lane s R cs, false, ac, [R], rj⟩ d [i]
      = (true,
         ⟨Ctr.lane (fromDirection d) R
            (if cs.length = 1 then [v]
             else if isNegativeDir d = true then [v, Ctr.lane s R (cs.eraseIdx i)]
             else [Ctr.lane s R (cs.eraseIdx i), v]),
          false, ac, [R], rj⟩,
         []) := by
    unfold moveContainer
    rw [hmove]
    by_cases hneg : isNegativeDir d = true
    · rw [if_pos hneg]
      simp only
      rw [hgv, hrem]
      by_cases hlen : cs.length = 1
      · rw [if_pos hlen, if_pos hlen]
        rfl
      · rw [if_neg hlen, if_neg hlen, if_pos hneg]
        rfl
    · rw [if_neg hneg]
      simp only
      rw [hgv, hrem]
      by_cases hlen : cs.length = 1
      · rw [if_pos hlen, if_pos hlen]
        rfl
      · rw [if_neg hlen, if_neg hlen, if_neg hneg]
        rfl
  refine ⟨hconj1, ?_⟩
  intro hcs gx gy b
  rw [hconj1]
  have hlen : cs.length = 1 := by rw [hcs]; rfl
  simp only [if_pos hlen]
  rw [hcs]
  rw [getVisibleArea_solo_child, getVisibleArea_solo_child]

/-- Witness for C5 (Scenario C of the spec): the sole leaf of a vertical
root moved rightwards wraps the root in a new horizontal lane whose only
child is the leaf, and the leaf's visible area does not change. -/
theorem c5_move_wraps_tree_on_axis_mismatch_witness :
    moveContainer
        ⟨.lane .vertical ⟨0, 0, 300, 200⟩ [.leaf ⟨0, 0, 300, 200⟩],
         false, none, [⟨0, 0, 300, 200⟩], 50⟩ .right [0]
      = (true,
         ⟨.lane .horizontal ⟨0, 0, 300, 200⟩ [.leaf ⟨0, 0, 300, 200⟩],
          false, none, [⟨0, 0, 300, 200⟩], 50⟩,
         [])
    ∧ getVisibleArea
        (moveContainer
          ⟨.lane .vertical ⟨0, 0, 300, 200⟩ [.leaf ⟨0, 0, 300, 200⟩],
           false, none, [⟨0, 0, 300, 200⟩], 50⟩ .right [0]).2.1.root
        [0] 10 10 2
      = getVisibleArea
          (.lane .vertical ⟨0, 0, 300, 200⟩ [.leaf ⟨0, 0, 300, 200⟩])
          [0] 10 10 2 := by
  have h := c5_move_wraps_tree_on_axis_mismatch
    ⟨.lane .vertical ⟨0, 0, 300, 200⟩ [.leaf ⟨0, 0, 300, 200⟩],
     false, none, [⟨0, 0, 300, 200⟩], 50⟩
    0 .right .vertical ⟨0, 0, 300, 200⟩ [.leaf ⟨0, 0, 300, 200⟩]
    (.leaf ⟨0, 0, 300, 200⟩) rfl rfl (by rfl) (by decide) rfl rfl
  refine ⟨?_, h.2 rfl 10 10 2⟩
  rw [h.1]
  rfl

end Miracle
